import Mathlib

/-
Shallow embedding of the dataset-partitioning logic of
`src/notebooks/data_ingestion/codecfake_upload_to_huggingface.ipynb`:

  * `create_df`            : directory-scan filter and label derivation
                             (cell 8 of the notebook);
  * `find_best_chunk_size` : divisor search for the chunk size (cell 11);
  * `buildPlan`            : the chunk-creation loop over the pandas
                             `groupby('audio_id')` iterator (cell 12).

Python strings are embedded as Lean `String`, but the Python string
operations `startswith`, `endswith` and `[:n]` are modelled directly on the
character list (`String.data`), because they are plain operations on the
sequence of characters.  Python integers are embedded as `Int`; `%` is the
zero-test-compatible `Int.emod` (for the only use here, `x % s == 0`, Python
and Lean agree for every nonzero `s`, and the Python `ZeroDivisionError` for
`s = 0` is made explicit in the result type).  Pandas `groupby(column)`
iterates the groups in ascending sorted order of the key (its default
`sort=True`) with each group keeping the original row order; it is embedded
as `groupby` below, sorting the distinct keys by the code-point
lexicographic order that Python uses to compare `str` values.
-/

namespace CodecFake

/-- Python `s.startswith(p)` on the character sequence of `s`. -/
def pyStartsWith (s p : String) : Bool := List.isPrefixOf p.data s.data

/-- Python `s.endswith(p)` on the character sequence of `s`. -/
def pyEndsWith (s p : String) : Bool := List.isSuffixOf p.data s.data

/-- Python `s[:n]` on the character sequence of `s`. -/
def pyTake (s : String) (n : Nat) : String := String.mk (s.data.take n)

/-- One record of the dataframe built by `create_df`: the payload file name,
the group id (`audio_id`, the base name of the containing directory) and the
derived label. -/
structure Row where
  audio : String
  audio_id : String
  real_or_fake : String
deriving DecidableEq

instance : Inhabited Row := ⟨⟨"", "", ""⟩⟩

/-- The per-file body of the scan loop of `create_df` (cell 8): keep only
`.flac` files, drop files whose `audio_id` starts with `SSB`, and derive the
`real_or_fake` label from the file name (`file[:3]` when the name starts
with `F0`, else `"R"`). -/
def processFile (audio_id file : String) : Option Row :=
  if pyEndsWith file ".flac" then
    if pyStartsWith audio_id "SSB" then none
    else some { audio := file
                audio_id := audio_id
                real_or_fake := if pyStartsWith file "F0" then pyTake file 3 else "R" }
  else none

/-- `create_df` over the scanned files, each given as the pair
`(audio_id, file name)` where `audio_id` is the base name of the directory
that holds the file (`os.path.basename(os.path.dirname(file_path))`).  The
dataframe keeps the scan order of the retained files. -/
def create_df (files : List (String × String)) : List Row :=
  files.filterMap fun p => processFile p.1 p.2

/-- How the chunk-size search can fail: exhausting the range raises
`ValueError("No suitable chunk size found within the given range.")`, and a
candidate size `0` raises `ZeroDivisionError` at `total_ids % size`. -/
inductive SearchFailure where
  | noDivisor
  | zeroDivision
deriving DecidableEq

instance : DecidableEq (Except SearchFailure Int) := fun x y =>
  match x, y with
  | .ok a, .ok b =>
      if h : a = b then isTrue (h ▸ rfl) else isFalse (fun hh => h (Except.ok.inj hh))
  | .ok _, .error _ => isFalse (fun hh => Except.noConfusion hh)
  | .error _, .ok _ => isFalse (fun hh => Except.noConfusion hh)
  | .error a, .error b =>
      if h : a = b then isTrue (h ▸ rfl) else isFalse (fun hh => h (Except.error.inj hh))

/-- The candidate list `range(max_size, min_size - 1, -1)` of
`find_best_chunk_size`: `max_size, max_size - 1, ..., min_size`. -/
def candidates (min_size max_size : Int) : List Int :=
  (List.range (max_size + 1 - min_size).toNat).map fun (i : Nat) => max_size - (i : Int)

/-- The scan loop of `find_best_chunk_size`, over an explicit candidate
list: the first candidate that evenly divides `total_ids` is returned;
candidate `0` raises `ZeroDivisionError`; an exhausted list raises the
`ValueError`. -/
def searchFrom (total_ids : Int) : List Int → Except SearchFailure Int
  | [] => .error .noDivisor
  | size :: rest =>
      if size = 0 then .error .zeroDivision
      else if total_ids % size = 0 then .ok size
      else searchFrom total_ids rest

/-- `find_best_chunk_size(total_ids, min_size, max_size)` of cell 11. -/
def find_best_chunk_size (total_ids min_size max_size : Int) : Except SearchFailure Int :=
  searchFrom total_ids (candidates min_size max_size)

/-- Code-point lexicographic comparison of character sequences, the order
Python uses on `str` and pandas uses to sort the `groupby` keys. -/
def strLeAux : List Char → List Char → Bool
  | [], _ => true
  | _ :: _, [] => false
  | a :: l, b :: m =>
      if a.toNat < b.toNat then true
      else if b.toNat < a.toNat then false
      else strLeAux l m

/-- Code-point lexicographic order on strings. -/
def strLe (a b : String) : Bool := strLeAux a.data b.data

/-- The key order as a decidable relation, for `List.insertionSort`. -/
def keyOrder (a b : String) : Prop := strLe a b = true

instance : DecidableRel keyOrder :=
  fun a b => inferInstanceAs (Decidable (strLe a b = true))

/-- The `audio_id` column of a row list. -/
def idsOf (rows : List Row) : List String := rows.map Row.audio_id

/-- The distinct `audio_id` keys of the dataframe in ascending sorted
order: the iteration order of `df.groupby('audio_id')`. -/
def sortedKeys (rows : List Row) : List String :=
  List.insertionSort keyOrder (idsOf rows).dedup

/-- `df.copy().groupby('audio_id')` as a list of `(key, group)` pairs:
keys ascending, each group the rows of that key in original order. -/
def groupby (rows : List Row) : List (String × List Row) :=
  (sortedKeys rows).map fun k => (k, rows.filter fun r => r.audio_id == k)

/-- A saved chunk: its derived name and its rows. -/
structure Chunk where
  name : String
  rows : List Row
deriving DecidableEq

instance : Inhabited Chunk := ⟨⟨"", []⟩⟩

/-- `save_chunk(chunk_data, chunk_index)` of cell 12: the chunk is named
`"partition<index>"` and carries its accumulated rows. -/
def save_chunk (chunk_index : Nat) (chunk_data : List Row) : Chunk :=
  { name := "partition" ++ toString chunk_index, rows := chunk_data }

/-- The chunk-creation loop of cell 12, with the mutated state made
explicit: the remaining groups, `chunk_index`, `current_chunk` and
`audio_ids_so_far` (a set of keys, modelled as a duplicate-free list).  A
group whose key was already seen is skipped (`continue`); before a new
group is added, the chunk is sealed and reset when
`len(audio_ids_so_far) + 1 > chunk_size`; after the loop the trailing
chunk is saved when it is non-empty. -/
def chunkLoop (chunk_size : Int) :
    List (String × List Row) → Nat → List Row → List String → List Chunk
  | [], chunk_index, current_chunk, _ =>
      if current_chunk.isEmpty then [] else [save_chunk chunk_index current_chunk]
  | (audio_id, group) :: rest, chunk_index, current_chunk, audio_ids_so_far =>
      if audio_id ∈ audio_ids_so_far then
        chunkLoop chunk_size rest chunk_index current_chunk audio_ids_so_far
      else if (audio_ids_so_far.length : Int) + 1 > chunk_size then
        save_chunk chunk_index current_chunk ::
          chunkLoop chunk_size rest (chunk_index + 1) group [audio_id]
      else
        chunkLoop chunk_size rest chunk_index (current_chunk ++ group)
          (audio_id :: audio_ids_so_far)

/-- The whole chunking pass of cell 12 applied to a dataframe. -/
def buildPlan (rows : List Row) (chunk_size : Int) : List Chunk :=
  chunkLoop chunk_size (groupby rows) 0 [] []

/-- `df['audio_id'].nunique()` of cell 9: the number of distinct group
ids. -/
def nunique (rows : List Row) : Nat := (idsOf rows).dedup.length

/-- The number of distinct group ids inside one chunk. -/
def chunkGroupCount (c : Chunk) : Nat := (idsOf c.rows).dedup.length

/-- Distinct elements of a list in order of first encounter (auxiliary,
with the already-emitted elements as accumulator). -/
def firstOccsAux (seen : List String) : List String → List String
  | [] => []
  | a :: l =>
      if a ∈ seen then firstOccsAux seen l
      else a :: firstOccsAux (a :: seen) l

/-- Distinct elements of a list in order of first encounter. -/
def firstOccs (l : List String) : List String := firstOccsAux [] l

/-- The sequence of group ids laid out across the chunks of a plan, each
group at its first position. -/
def groupOrder (plan : List Chunk) : List String :=
  firstOccs (idsOf ((plan.map Chunk.rows).flatten))

/-- Specification of the per-chunk distinct-group counts produced by
`chunkLoop` when `s` keys are already in the current chunk and `t` fresh
groups remain. -/
def countsFrom (chunk_size : Int) : Nat → Nat → List Nat
  | s, 0 => if s = 0 then [] else [s]
  | s, t + 1 =>
      if (s : Int) + 1 > chunk_size then s :: countsFrom chunk_size 1 t
      else countsFrom chunk_size (s + 1) t

end CodecFake

namespace CodecFake

lemma searchFrom_ok {total_ids d : Int} :
    ∀ {l : List Int}, searchFrom total_ids l = .ok d → d ∈ l ∧ d ∣ total_ids := by
  intro l
  induction l with
  | nil => intro h; simp [searchFrom] at h
  | cons s rest ih =>
      intro h
      rw [searchFrom] at h
      by_cases h0 : s = 0
      · simp [h0] at h
      · rw [if_neg h0] at h
        by_cases hm : total_ids % s = 0
        · rw [if_pos hm] at h
          have hd : s = d := Except.ok.inj h
          subst hd
          exact ⟨List.mem_cons_self _ _, Int.dvd_of_emod_eq_zero hm⟩
        · rw [if_neg hm] at h
          obtain ⟨h1, h2⟩ := ih h
          exact ⟨List.mem_cons_of_mem _ h1, h2⟩

lemma searchFrom_error_iff {total_ids : Int} :
    ∀ {l : List Int}, (∀ s ∈ l, s ≠ 0) →
      (searchFrom total_ids l = .error .noDivisor ↔ ∀ s ∈ l, ¬ s ∣ total_ids) := by
  intro l
  induction l with
  | nil => intro _; simp [searchFrom]
  | cons s rest ih =>
      intro hnz
      have h0 : s ≠ 0 := hnz s (List.mem_cons_self _ _)
      rw [searchFrom, if_neg h0]
      by_cases hm : total_ids % s = 0
      · rw [if_pos hm]
        constructor
        · intro h; exact absurd h (by simp)
        · intro h
          exact absurd (Int.dvd_of_emod_eq_zero hm) (h s (List.mem_cons_self _ _))
      · rw [if_neg hm]
        rw [ih (fun x hx => hnz x (List.mem_cons_of_mem _ hx))]
        constructor
        · intro h x hx
          rcases List.mem_cons.1 hx with rfl | hx2
          · intro hdvd; exact hm (Int.emod_eq_zero_of_dvd hdvd)
          · exact h x hx2
        · intro h x hx; exact h x (List.mem_cons_of_mem _ hx)

lemma searchFrom_ok_of_exists {total_ids : Int} :
    ∀ {l : List Int}, (∀ s ∈ l, s ≠ 0) → (∃ s ∈ l, s ∣ total_ids) →
      ∃ d, searchFrom total_ids l = .ok d := by
  intro l
  induction l with
  | nil => intro _ h; simp at h
  | cons s rest ih =>
      intro hnz hex
      have h0 : s ≠ 0 := hnz s (List.mem_cons_self _ _)
      rw [searchFrom, if_neg h0]
      by_cases hm : total_ids % s = 0
      · exact ⟨s, if_pos hm⟩
      · rw [if_neg hm]
        apply ih (fun x hx => hnz x (List.mem_cons_of_mem _ hx))
        obtain ⟨x, hx, hdvd⟩ := hex
        rcases List.mem_cons.1 hx with rfl | hx2
        · exact absurd (Int.emod_eq_zero_of_dvd hdvd) hm
        · exact ⟨x, hx2, hdvd⟩

lemma searchFrom_max {total_ids d : Int} :
    ∀ {l : List Int}, List.Pairwise (fun a b => b < a) l →
      searchFrom total_ids l = .ok d → ∀ s ∈ l, s ∣ total_ids → s ≤ d := by
  intro l
  induction l with
  | nil => intro _ h; simp [searchFrom] at h
  | cons a rest ih =>
      intro hpw h s hs hdvd
      rw [searchFrom] at h
      by_cases h0 : a = 0
      · simp [h0] at h
      · rw [if_neg h0] at h
        by_cases hm : total_ids % a = 0
        · rw [if_pos hm] at h
          have hd : a = d := Except.ok.inj h
          subst hd
          rcases List.mem_cons.1 hs with rfl | hs2
          · exact le_refl _
          · exact le_of_lt ((List.pairwise_cons.1 hpw).1 s hs2)
        · rw [if_neg hm] at h
          rcases List.mem_cons.1 hs with rfl | hs2
          · exact absurd (Int.emod_eq_zero_of_dvd hdvd) hm
          · exact ih (List.pairwise_cons.1 hpw).2 h s hs2 hdvd

lemma mem_candidates {min_size max_size s : Int} :
    s ∈ candidates min_size max_size ↔ min_size ≤ s ∧ s ≤ max_size := by
  unfold candidates
  simp only [List.mem_map, List.mem_range]
  constructor
  · rintro ⟨i, hi, rfl⟩
    omega
  · rintro ⟨h1, h2⟩
    exact ⟨(max_size - s).toNat, by omega, by omega⟩

lemma candidates_sorted (min_size max_size : Int) :
    List.Pairwise (fun a b => b < a) (candidates min_size max_size) := by
  unfold candidates
  exact List.Pairwise.map _ (fun a b hab => by omega) (List.pairwise_lt_range _)

end CodecFake

namespace CodecFake

/-- Claim C3, as stated, is false: for `total_ids = 5`, `min_size = -1`,
`max_size = 0` the bounds are ordered and `-1` is an integer in the range
that divides `5`, but the scan reaches the candidate `0` first and fails
with `ZeroDivisionError` instead of returning the largest divisor. -/
theorem claim3_counterexample :
    find_best_chunk_size 5 (-1) 0 = .error .zeroDivision
    ∧ ((-1 : Int) ∣ 5 ∧ (-1 : Int) ≤ -1 ∧ (-1 : Int) ≤ 0)
    ∧ ¬ ∃ d, find_best_chunk_size 5 (-1) 0 = Except.ok d := by
  refine ⟨by decide, ⟨⟨-5, by decide⟩, by decide, by decide⟩, ?_⟩
  rintro ⟨d, hd⟩
  have h1 : find_best_chunk_size 5 (-1) 0 = .error .zeroDivision := by decide
  rw [h1] at hd
  exact Except.noConfusion hd

/-- Claim C3 (amended with `1 ≤ min_size`, so that the scan never reaches
the candidate `0`): whenever some integer in `[min_size, max_size]` divides
`total_ids`, `find_best_chunk_size` returns the largest such divisor — the
first candidate found scanning from `max_size` down to `min_size`. -/
theorem claim3_theorem (total_ids min_size max_size : Int)
    (hpos : 0 < total_ids) (hmin : 1 ≤ min_size) (hle : min_size ≤ max_size)
    (hex : ∃ s, min_size ≤ s ∧ s ≤ max_size ∧ s ∣ total_ids) :
    ∃ d, find_best_chunk_size total_ids min_size max_size = .ok d
      ∧ min_size ≤ d ∧ d ≤ max_size ∧ d ∣ total_ids
      ∧ ∀ s, min_size ≤ s → s ≤ max_size → s ∣ total_ids → s ≤ d := by
  have hnz : ∀ s ∈ candidates min_size max_size, s ≠ 0 := by
    intro s hs
    have := mem_candidates.1 hs
    omega
  obtain ⟨s0, hs1, hs2, hs3⟩ := hex
  obtain ⟨d, hd⟩ :=
    searchFrom_ok_of_exists hnz ⟨s0, mem_candidates.2 ⟨hs1, hs2⟩, hs3⟩
  obtain ⟨hdmem, hddvd⟩ := searchFrom_ok hd
  obtain ⟨hb1, hb2⟩ := mem_candidates.1 hdmem
  exact ⟨d, hd, hb1, hb2, hddvd, fun s h1 h2 h3 =>
    searchFrom_max (candidates_sorted _ _) hd s (mem_candidates.2 ⟨h1, h2⟩) h3⟩

/-- Witness for C3 at the concrete scenario of the spec:
`total_ids = 35433`, bounds `[90, 110]`; the returned size is `93` and
`35433 / 93 = 381`. -/
theorem claim3_witness :
    ((0 : Int) < 35433 ∧ (1 : Int) ≤ 90 ∧ (90 : Int) ≤ 110
      ∧ ((93 : Int) ∣ 35433 ∧ (90 : Int) ≤ 93 ∧ (93 : Int) ≤ 110))
    ∧ (∃ d, find_best_chunk_size 35433 90 110 = .ok d
        ∧ (90 : Int) ≤ d ∧ d ≤ 110 ∧ d ∣ 35433
        ∧ ∀ s, (90 : Int) ≤ s → s ≤ 110 → s ∣ 35433 → s ≤ d)
    ∧ find_best_chunk_size 35433 90 110 = .ok 93
    ∧ (35433 : Int) / 93 = 381 := by
  refine ⟨⟨by decide, by decide, by decide, ⟨381, by decide⟩, by decide, by decide⟩,
    claim3_theorem 35433 90 110 (by decide) (by decide) (by decide)
      ⟨93, by decide, by decide, ⟨381, by decide⟩⟩,
    by decide, by decide⟩

/-- Claim C4, as stated, is false: for `total_ids = 5`,
`min_size = max_size = 0` no integer in the range divides `5`, yet the
failure is `ZeroDivisionError` (at `5 % 0`), not the `ValueError` of an
exhausted range. -/
theorem claim4_counterexample :
    find_best_chunk_size 5 0 0 = .error .zeroDivision
    ∧ find_best_chunk_size 5 0 0 ≠ .error .noDivisor
    ∧ ¬ ∃ s : Int, 0 ≤ s ∧ s ≤ 0 ∧ s ∣ 5 := by
  refine ⟨by decide, by decide, ?_⟩
  rintro ⟨s, h1, h2, h3⟩
  have hs : s = 0 := le_antisymm h2 h1
  rw [hs] at h3
  have h5 : (5 : Int) = 0 := zero_dvd_iff.1 h3
  exact absurd h5 (by decide)

/-- Claim C4 (amended with `1 ≤ min_size`, so that every scanned candidate
is nonzero): the search fails with the `ValueError` exactly when no integer
in `[min_size, max_size]` divides `total_ids`, and on success it returns a
divisor inside the bounds. -/
theorem claim4_theorem (total_ids min_size max_size : Int)
    (hpos : 0 < total_ids) (hmin : 1 ≤ min_size) (hle : min_size ≤ max_size) :
    (find_best_chunk_size total_ids min_size max_size = .error .noDivisor
      ↔ ¬ ∃ s : Int, min_size ≤ s ∧ s ≤ max_size ∧ s ∣ total_ids)
    ∧ ∀ d, find_best_chunk_size total_ids min_size max_size = .ok d
        → min_size ≤ d ∧ d ≤ max_size ∧ d ∣ total_ids := by
  have hnz : ∀ s ∈ candidates min_size max_size, s ≠ 0 := by
    intro s hs
    have := mem_candidates.1 hs
    omega
  constructor
  · rw [find_best_chunk_size, searchFrom_error_iff hnz]
    constructor
    · rintro h ⟨s, h1, h2, h3⟩
      exact h s (mem_candidates.2 ⟨h1, h2⟩) h3
    · intro h s hs h3
      exact h ⟨s, (mem_candidates.1 hs).1, (mem_candidates.1 hs).2, h3⟩
  · intro d hd
    obtain ⟨hm, hdv⟩ := searchFrom_ok hd
    obtain ⟨h1, h2⟩ := mem_candidates.1 hm
    exact ⟨h1, h2, hdv⟩

/-- Witness for C4 at `total_ids = 7`, bounds `[3, 6]`: no divisor exists
in the range and the search fails with the `ValueError`. -/
theorem claim4_witness :
    ((0 : Int) < 7 ∧ (1 : Int) ≤ 3 ∧ (3 : Int) ≤ 6)
    ∧ ((find_best_chunk_size 7 3 6 = .error .noDivisor
          ↔ ¬ ∃ s : Int, 3 ≤ s ∧ s ≤ 6 ∧ s ∣ 7)
        ∧ ∀ d, find_best_chunk_size 7 3 6 = .ok d
            → (3 : Int) ≤ d ∧ d ≤ 6 ∧ d ∣ 7)
    ∧ find_best_chunk_size 7 3 6 = .error .noDivisor :=
  ⟨⟨by decide, by decide, by decide⟩,
    claim4_theorem 7 3 6 (by decide) (by decide) (by decide), by decide⟩

end CodecFake

namespace CodecFake

lemma sortedKeys_nodup (rows : List Row) : (sortedKeys rows).Nodup :=
  ((List.perm_insertionSort keyOrder _).nodup_iff).2 (List.nodup_dedup _)

lemma mem_sortedKeys {rows : List Row} {k : String} :
    k ∈ sortedKeys rows ↔ k ∈ idsOf rows := by
  rw [sortedKeys, (List.perm_insertionSort keyOrder _).mem_iff, List.mem_dedup]

lemma groupby_keys (rows : List Row) :
    (groupby rows).map Prod.fst = sortedKeys rows := by
  rw [groupby, List.map_map]
  exact List.map_id _

lemma groupby_keys_nodup (rows : List Row) :
    ((groupby rows).map Prod.fst).Nodup := by
  rw [groupby_keys]
  exact sortedKeys_nodup rows

lemma groupby_group_ids {rows : List Row} {p : String × List Row}
    (hp : p ∈ groupby rows) : ∀ r ∈ p.2, r.audio_id = p.1 := by
  rw [groupby] at hp
  obtain ⟨k, hk, rfl⟩ := List.mem_map.1 hp
  intro r hr
  exact eq_of_beq (List.mem_filter.1 hr).2

lemma groupby_group_ne_nil {rows : List Row} {p : String × List Row}
    (hp : p ∈ groupby rows) : p.2 ≠ [] := by
  rw [groupby] at hp
  obtain ⟨k, hk, rfl⟩ := List.mem_map.1 hp
  obtain ⟨r, hr, hid⟩ := List.mem_map.1 (mem_sortedKeys.1 hk)
  show (rows.filter fun r => r.audio_id == k) ≠ []
  intro hnil
  have hrf : r ∈ rows.filter fun r => r.audio_id == k :=
    List.mem_filter.2 ⟨hr, beq_iff_eq.2 hid⟩
  rw [hnil] at hrf
  exact absurd hrf (List.not_mem_nil r)

lemma groupby_flatten_mem {rows : List Row} {r : Row} :
    r ∈ ((groupby rows).map Prod.snd).flatten ↔ r ∈ rows := by
  rw [List.mem_flatten]
  constructor
  · rintro ⟨l, hl, hr⟩
    obtain ⟨p, hp, rfl⟩ := List.mem_map.1 hl
    rw [groupby] at hp
    obtain ⟨k, hk, rfl⟩ := List.mem_map.1 hp
    exact (List.mem_filter.1 hr).1
  · intro hr
    refine ⟨rows.filter fun x => x.audio_id == r.audio_id, ?_, ?_⟩
    · refine List.mem_map.2 ⟨⟨r.audio_id, rows.filter fun x => x.audio_id == r.audio_id⟩, ?_, rfl⟩
      rw [groupby]
      refine List.mem_map.2 ⟨r.audio_id, ?_, rfl⟩
      exact mem_sortedKeys.2 (List.mem_map.2 ⟨r, hr, rfl⟩)
    · rw [List.mem_filter]
      exact ⟨hr, beq_iff_eq.2 rfl⟩

lemma chunkLoop_flatten (chunk_size : Int) :
    ∀ (gs : List (String × List Row)) (idx : Nat) (cur : List Row) (seen : List String),
      (gs.map Prod.fst).Nodup → (∀ p ∈ gs, p.1 ∉ seen) →
      ((chunkLoop chunk_size gs idx cur seen).map Chunk.rows).flatten
        = cur ++ (gs.map Prod.snd).flatten := by
  intro gs
  induction gs with
  | nil =>
      intro idx cur seen _ _
      rw [chunkLoop]
      by_cases hc : cur.isEmpty
      · rw [if_pos hc]
        rw [List.isEmpty_iff.1 hc]
        simp
      · rw [if_neg hc]
        simp [save_chunk]
  | cons p rest ih =>
      obtain ⟨k, g⟩ := p
      intro idx cur seen hnd hfresh
      have hnd2 : (rest.map Prod.fst).Nodup := (List.nodup_cons.1 hnd).2
      have hknotin : k ∉ rest.map Prod.fst := (List.nodup_cons.1 hnd).1
      rw [chunkLoop]
      rw [if_neg (hfresh ⟨k, g⟩ (List.mem_cons_self _ _))]
      by_cases hseal : (seen.length : Int) + 1 > chunk_size
      · rw [if_pos hseal]
        have hfresh2 : ∀ p ∈ rest, (p : String × List Row).1 ∉ [k] := by
          intro q hq hmem
          exact hknotin (List.mem_map.2 ⟨q, hq, List.mem_singleton.1 hmem⟩)
        simp only [List.map_cons, List.flatten_cons, save_chunk]
        rw [ih (idx + 1) g [k] hnd2 hfresh2]
      · rw [if_neg hseal]
        have hfresh2 : ∀ p ∈ rest, (p : String × List Row).1 ∉ k :: seen := by
          intro q hq hmem
          rcases List.mem_cons.1 hmem with hqk | hqseen
          · exact hknotin (List.mem_map.2 ⟨q, hq, hqk⟩)
          · exact hfresh q (List.mem_cons_of_mem _ hq) hqseen
        rw [ih idx (cur ++ g) (k :: seen) hnd2 hfresh2]
        simp [List.append_assoc]

lemma mem_plan_rows {rows : List Row} {chunk_size : Int} {c : Chunk} {r : Row}
    (hc : c ∈ buildPlan rows chunk_size) (hr : r ∈ c.rows) : r ∈ rows := by
  have hfl := chunkLoop_flatten chunk_size (groupby rows) 0 [] []
    (groupby_keys_nodup rows) (by simp)
  rw [buildPlan] at hc
  have hmem : r ∈ ((chunkLoop chunk_size (groupby rows) 0 [] []).map Chunk.rows).flatten :=
    List.mem_flatten.2 ⟨c.rows, List.mem_map.2 ⟨c, hc, rfl⟩, hr⟩
  rw [hfl] at hmem
  rw [List.nil_append] at hmem
  exact groupby_flatten_mem.1 hmem

end CodecFake

namespace CodecFake

lemma mem_create_df {files : List (String × String)} {r : Row}
    (h : r ∈ create_df files) :
    pyEndsWith r.audio ".flac" = true
    ∧ pyStartsWith r.audio_id "SSB" = false
    ∧ r.real_or_fake = (if pyStartsWith r.audio "F0" then pyTake r.audio 3 else "R") := by
  rw [create_df, List.mem_filterMap] at h
  obtain ⟨⟨gid, fname⟩, hmem, hp⟩ := h
  by_cases h1 : pyEndsWith fname ".flac" = true
  · by_cases h2 : pyStartsWith gid "SSB" = true
    · rw [processFile] at hp
      simp [h1, h2] at hp
    · rw [processFile] at hp
      simp only [h1, if_true, Bool.not_eq_true] at hp
      rw [if_neg (by simp [Bool.not_eq_true] at h2 ⊢; exact h2)] at hp
      injection hp with hr
      subst hr
      refine ⟨h1, ?_, rfl⟩
      simpa using h2
  · rw [processFile] at hp
    simp [h1] at hp

/-- Claim C7: for every retained item, the derived label is a function of
the file name alone: the first three characters when the name starts with
the fake-audio marker `F0`, and exactly `"R"` otherwise. -/
theorem claim7_theorem (files : List (String × String)) (r : Row)
    (h : r ∈ create_df files) :
    r.real_or_fake = if pyStartsWith r.audio "F0" then pyTake r.audio 3 else "R" :=
  (mem_create_df h).2.2

/-- Witness for C7: the file `F01_x.flac` of group `A` gets label `F01`. -/
theorem claim7_witness :
    ((⟨"F01_x.flac", "A", "F01"⟩ : Row) ∈ create_df [("A", "F01_x.flac")])
    ∧ (⟨"F01_x.flac", "A", "F01"⟩ : Row).real_or_fake
        = if pyStartsWith (⟨"F01_x.flac", "A", "F01"⟩ : Row).audio "F0"
          then pyTake (⟨"F01_x.flac", "A", "F01"⟩ : Row).audio 3 else "R" :=
  ⟨by decide, claim7_theorem [("A", "F01_x.flac")] ⟨"F01_x.flac", "A", "F01"⟩ (by decide)⟩

/-- Claim C6: an input item whose group id starts with `SSB` is dropped
before grouping — the dataframe is the same without it, it reaches no chunk,
and its group id is absent from the distinct-group count. -/
theorem claim6_theorem (gid fname : String) (files : List (String × String))
    (chunk_size : Int) (h : pyStartsWith gid "SSB" = true) :
    create_df ((gid, fname) :: files) = create_df files
    ∧ (∀ c ∈ buildPlan (create_df ((gid, fname) :: files)) chunk_size,
        ∀ r ∈ c.rows, r.audio_id ≠ gid)
    ∧ gid ∉ idsOf (create_df ((gid, fname) :: files)) := by
  have hdrop : create_df ((gid, fname) :: files) = create_df files := by
    rw [create_df, create_df, List.filterMap_cons]
    have : processFile gid fname = none := by
      rw [processFile]
      by_cases h1 : pyEndsWith fname ".flac" = true
      · simp [h1, h]
      · simp [h1]
    rw [this]
  have hnot : ∀ r ∈ create_df ((gid, fname) :: files), r.audio_id ≠ gid := by
    intro r hr heq
    have := (mem_create_df hr).2.1
    rw [heq] at this
    rw [h] at this
    exact Bool.noConfusion this
  refine ⟨hdrop, ?_, ?_⟩
  · intro c hc r hr
    exact hnot r (mem_plan_rows hc hr)
  · intro hmem
    obtain ⟨r, hr, hid⟩ := List.mem_map.1 hmem
    exact hnot r hr hid

/-- Witness for C6: the item with group id `SSB0001` is excluded. -/
theorem claim6_witness :
    pyStartsWith "SSB0001" "SSB" = true
    ∧ create_df [("SSB0001", "x.flac"), ("A", "a.flac")] = create_df [("A", "a.flac")]
    ∧ "SSB0001" ∉ idsOf (create_df [("SSB0001", "x.flac"), ("A", "a.flac")]) := by
  have H := claim6_theorem "SSB0001" "x.flac" [("A", "a.flac")] 1 (by decide)
  exact ⟨by decide, H.1, H.2.2⟩

/-- Claim C10: only files whose name ends in `.flac` become dataframe rows;
any other file is silently dropped by `create_df` and can appear in no chunk
of any partition plan. -/
theorem claim10_theorem (gid fname : String) (files : List (String × String))
    (chunk_size : Int) (h : pyEndsWith fname ".flac" = false) :
    processFile gid fname = none
    ∧ ∀ c ∈ buildPlan (create_df files) chunk_size, ∀ r ∈ c.rows,
        pyEndsWith r.audio ".flac" = true := by
  constructor
  · rw [processFile]
    simp [h]
  · intro c hc r hr
    exact (mem_create_df (mem_plan_rows hc hr)).1

/-- Witness for C10: `x.mp3` yields no row, while the `.flac` row of the
single chunk of a one-file plan does end in `.flac`. -/
theorem claim10_witness :
    pyEndsWith "x.mp3" ".flac" = false
    ∧ processFile "A" "x.mp3" = none
    ∧ pyEndsWith (Row.mk "a.flac" "A" "R").audio ".flac" = true := by
  have H := claim10_theorem "A" "x.mp3" [("A", "a.flac")] 1 (by decide)
  exact ⟨by decide, H.1,
    H.2 ⟨"partition0", [⟨"a.flac", "A", "R"⟩]⟩ (by decide) ⟨"a.flac", "A", "R"⟩ (by decide)⟩

end CodecFake

namespace CodecFake

lemma idsOf_append (l1 l2 : List Row) : idsOf (l1 ++ l2) = idsOf l1 ++ idsOf l2 :=
  List.map_append _ _ _

lemma mem_idsOf {rows : List Row} {k : String} :
    k ∈ idsOf rows ↔ ∃ r ∈ rows, r.audio_id = k := List.mem_map

lemma chunkLoop_ids (chunk_size : Int) :
    ∀ (gs : List (String × List Row)) (idx : Nat) (cur : List Row) (seen : List String),
      (gs.map Prod.fst).Nodup →
      (∀ p ∈ gs, ∀ r ∈ p.2, r.audio_id = p.1) →
      (∀ p ∈ gs, (p : String × List Row).1 ∉ idsOf cur) →
      (∀ p ∈ gs, (p : String × List Row).1 ∉ seen) →
      (∀ c ∈ chunkLoop chunk_size gs idx cur seen, ∀ k, k ∈ idsOf c.rows →
          k ∈ idsOf cur ∨ k ∈ gs.map Prod.fst)
      ∧ List.Pairwise (fun c d => ∀ k, k ∈ idsOf c.rows → k ∉ idsOf d.rows)
          (chunkLoop chunk_size gs idx cur seen) := by
  intro gs
  induction gs with
  | nil =>
      intro idx cur seen _ _ _ _
      rw [chunkLoop]
      by_cases hc : cur.isEmpty
      · rw [if_pos hc]
        exact ⟨fun c hc2 => absurd hc2 (List.not_mem_nil c), List.Pairwise.nil⟩
      · rw [if_neg hc]
        refine ⟨?_, List.pairwise_singleton _ _⟩
        intro c hc2 k hk
        rw [List.mem_singleton.1 hc2] at hk
        exact Or.inl hk
  | cons p rest ih =>
      obtain ⟨k, g⟩ := p
      intro idx cur seen hnd hmatch hcur hfresh
      have hnd2 : (rest.map Prod.fst).Nodup := (List.nodup_cons.1 hnd).2
      have hknotin : k ∉ rest.map Prod.fst := (List.nodup_cons.1 hnd).1
      have hmatch2 : ∀ p ∈ rest, ∀ r ∈ p.2, r.audio_id = p.1 :=
        fun p hp => hmatch p (List.mem_cons_of_mem _ hp)
      have hgid : ∀ x, x ∈ idsOf g → x = k := by
        intro x hx
        obtain ⟨r, hr, hrx⟩ := mem_idsOf.1 hx
        rw [← hrx]
        exact hmatch ⟨k, g⟩ (List.mem_cons_self _ _) r hr
      rw [chunkLoop]
      rw [if_neg (hfresh ⟨k, g⟩ (List.mem_cons_self _ _))]
      by_cases hseal : (seen.length : Int) + 1 > chunk_size
      · rw [if_pos hseal]
        have hcur2 : ∀ p ∈ rest, (p : String × List Row).1 ∉ idsOf g := by
          intro q hq hmem
          exact hknotin ((hgid q.1 hmem) ▸ List.mem_map.2 ⟨q, hq, rfl⟩)
        have hfresh2 : ∀ p ∈ rest, (p : String × List Row).1 ∉ [k] := by
          intro q hq hmem
          exact hknotin (List.mem_map.2 ⟨q, hq, List.mem_singleton.1 hmem⟩)
        obtain ⟨S1, S2⟩ := ih (idx + 1) g [k] hnd2 hmatch2 hcur2 hfresh2
        constructor
        · intro c hc x hx
          rcases List.mem_cons.1 hc with rfl | hc2
          · exact Or.inl hx
          · rcases S1 c hc2 x hx with hg | hrest
            · exact Or.inr (by rw [hgid x hg]; exact List.mem_cons_self _ _)
            · exact Or.inr (List.mem_cons_of_mem _ hrest)
        · rw [List.pairwise_cons]
          refine ⟨?_, S2⟩
          intro d hd x hx hxd
          rcases S1 d hd x hxd with hg | hrest
          · have hxk : x = k := hgid x hg
            rw [hxk] at hx
            exact hcur ⟨k, g⟩ (List.mem_cons_self _ _) hx
          · obtain ⟨q, hq, hqx⟩ := List.mem_map.1 hrest
            exact hcur q (List.mem_cons_of_mem _ hq) (hqx ▸ hx)
      · rw [if_neg hseal]
        have hcur2 : ∀ p ∈ rest, (p : String × List Row).1 ∉ idsOf (cur ++ g) := by
          intro q hq hmem
          rw [idsOf_append, List.mem_append] at hmem
          rcases hmem with hc | hg
          · exact hcur q (List.mem_cons_of_mem _ hq) hc
          · exact hknotin ((hgid q.1 hg) ▸ List.mem_map.2 ⟨q, hq, rfl⟩)
        have hfresh2 : ∀ p ∈ rest, (p : String × List Row).1 ∉ k :: seen := by
          intro q hq hmem
          rcases List.mem_cons.1 hmem with hqk | hqs
          · exact hknotin (List.mem_map.2 ⟨q, hq, hqk⟩)
          · exact hfresh q (List.mem_cons_of_mem _ hq) hqs
        obtain ⟨S1, S2⟩ := ih idx (cur ++ g) (k :: seen) hnd2 hmatch2 hcur2 hfresh2
        constructor
        · intro c hc x hx
          rcases S1 c hc x hx with hcg | hrest
          · rw [idsOf_append, List.mem_append] at hcg
            rcases hcg with hc2 | hg
            · exact Or.inl hc2
            · exact Or.inr (by rw [hgid x hg]; exact List.mem_cons_self _ _)
          · exact Or.inr (List.mem_cons_of_mem _ hrest)
        · exact S2

/-- Claim C1: for every input row list and every chunk size, the group ids
of the chunks of the partition plan cover exactly the group ids of the
input, and no group id occurs in two different chunks. -/
theorem claim1_theorem (rows : List Row) (chunk_size : Int) :
    (∀ k, (∃ c ∈ buildPlan rows chunk_size, k ∈ idsOf c.rows) ↔ k ∈ idsOf rows)
    ∧ List.Pairwise (fun c d => ∀ k, k ∈ idsOf c.rows → k ∉ idsOf d.rows)
        (buildPlan rows chunk_size) := by
  constructor
  · intro k
    constructor
    · rintro ⟨c, hc, hk⟩
      obtain ⟨r, hr, hrk⟩ := mem_idsOf.1 hk
      exact mem_idsOf.2 ⟨r, mem_plan_rows hc hr, hrk⟩
    · intro hk
      obtain ⟨r, hr, hrk⟩ := mem_idsOf.1 hk
      have hr2 : r ∈ ((groupby rows).map Prod.snd).flatten := groupby_flatten_mem.2 hr
      have hfl := chunkLoop_flatten chunk_size (groupby rows) 0 [] []
        (groupby_keys_nodup rows) (by simp)
      rw [List.nil_append] at hfl
      rw [← hfl] at hr2
      obtain ⟨l, hl, hrl⟩ := List.mem_flatten.1 hr2
      obtain ⟨c, hc, rfl⟩ := List.mem_map.1 hl
      exact ⟨c, hc, mem_idsOf.2 ⟨r, hrl, hrk⟩⟩
  · have := chunkLoop_ids chunk_size (groupby rows) 0 [] []
      (groupby_keys_nodup rows) (fun p hp => groupby_group_ids hp)
      (by simp [idsOf]) (by simp)
    exact this.2

end CodecFake

namespace CodecFake

lemma dedup_length_eq {l seen : List String} (hs : seen.Nodup)
    (hmem : ∀ k, k ∈ l ↔ k ∈ seen) : l.dedup.length = seen.length :=
  ((List.perm_ext_iff_of_nodup (List.nodup_dedup l) hs).2
    (fun a => by rw [List.mem_dedup]; exact hmem a)).length_eq

lemma countsFrom_zero (cs : Int) (s : Nat) :
    countsFrom cs s 0 = if s = 0 then [] else [s] := rfl

lemma countsFrom_succ (cs : Int) (s t : Nat) :
    countsFrom cs s (t + 1) =
      if (s : Int) + 1 > cs then s :: countsFrom cs 1 t else countsFrom cs (s + 1) t := rfl

lemma chunkLoop_counts (chunk_size : Int) :
    ∀ (gs : List (String × List Row)) (idx : Nat) (cur : List Row) (seen : List String),
      (gs.map Prod.fst).Nodup →
      (∀ p ∈ gs, ∀ r ∈ p.2, r.audio_id = p.1) →
      (∀ p ∈ gs, (p : String × List Row).2 ≠ []) →
      (∀ p ∈ gs, (p : String × List Row).1 ∉ seen) →
      seen.Nodup →
      (∀ k, k ∈ idsOf cur ↔ k ∈ seen) →
      (chunkLoop chunk_size gs idx cur seen).map chunkGroupCount
        = countsFrom chunk_size seen.length gs.length := by
  intro gs
  induction gs with
  | nil =>
      intro idx cur seen _ _ _ _ hsnd hmem
      rw [chunkLoop]
      by_cases hc : cur.isEmpty
      · rw [if_pos hc]
        have hse : seen = [] := by
          rw [List.eq_nil_iff_forall_not_mem]
          intro k hk
          have := (hmem k).2 hk
          rw [List.isEmpty_iff.1 hc] at this
          exact absurd this (by simp [idsOf])
        rw [hse]
        simp [countsFrom_zero]
      · rw [if_neg hc]
        have hlen : (idsOf cur).dedup.length = seen.length := dedup_length_eq hsnd hmem
        have hne : seen.length ≠ 0 := by
          intro h0
          have hse : seen = [] := List.length_eq_zero.1 h0
          obtain ⟨r, hr⟩ := List.exists_mem_of_ne_nil cur (by
            intro hnil
            rw [hnil] at hc
            exact hc rfl)
          have : r.audio_id ∈ seen := (hmem r.audio_id).1 (mem_idsOf.2 ⟨r, hr, rfl⟩)
          rw [hse] at this
          exact absurd this (List.not_mem_nil _)
        rw [List.length_nil, countsFrom_zero, if_neg hne]
        simp only [List.map_cons, List.map_nil]
        rw [show chunkGroupCount (save_chunk idx cur) = (idsOf cur).dedup.length from rfl]
        rw [hlen]
  | cons p rest ih =>
      obtain ⟨k, g⟩ := p
      intro idx cur seen hnd hmatch hne hfresh hsnd hmem
      have hnd2 : (rest.map Prod.fst).Nodup := (List.nodup_cons.1 hnd).2
      have hknotin : k ∉ rest.map Prod.fst := (List.nodup_cons.1 hnd).1
      have hmatch2 : ∀ p ∈ rest, ∀ r ∈ p.2, r.audio_id = p.1 :=
        fun p hp => hmatch p (List.mem_cons_of_mem _ hp)
      have hne2 : ∀ p ∈ rest, (p : String × List Row).2 ≠ [] :=
        fun p hp => hne p (List.mem_cons_of_mem _ hp)
      have hgid : ∀ x, x ∈ idsOf g → x = k := by
        intro x hx
        obtain ⟨r, hr, hrx⟩ := mem_idsOf.1 hx
        rw [← hrx]
        exact hmatch ⟨k, g⟩ (List.mem_cons_self _ _) r hr
      have hkg : k ∈ idsOf g := by
        obtain ⟨r, hr⟩ := List.exists_mem_of_ne_nil g (hne ⟨k, g⟩ (List.mem_cons_self _ _))
        exact mem_idsOf.2 ⟨r, hr, hmatch ⟨k, g⟩ (List.mem_cons_self _ _) r hr⟩
      rw [chunkLoop]
      rw [if_neg (hfresh ⟨k, g⟩ (List.mem_cons_self _ _))]
      by_cases hseal : (seen.length : Int) + 1 > chunk_size
      · rw [if_pos hseal]
        simp only [List.map_cons]
        have hfresh2 : ∀ p ∈ rest, (p : String × List Row).1 ∉ [k] := by
          intro q hq hmemq
          exact hknotin (List.mem_map.2 ⟨q, hq, List.mem_singleton.1 hmemq⟩)
        have hmem2 : ∀ x, x ∈ idsOf g ↔ x ∈ [k] := by
          intro x
          constructor
          · intro hx
            rw [List.mem_singleton]
            exact hgid x hx
          · intro hx
            rw [List.mem_singleton.1 hx]
            exact hkg
        rw [ih (idx + 1) g [k] hnd2 hmatch2 hne2 hfresh2 (List.nodup_singleton k) hmem2]
        rw [show chunkGroupCount (save_chunk idx cur) = (idsOf cur).dedup.length from rfl]
        rw [dedup_length_eq hsnd hmem]
        simp only [List.length_cons, List.length_nil, List.length_singleton]
        rw [countsFrom_succ, if_pos hseal]
      · rw [if_neg hseal]
        have hfresh2 : ∀ p ∈ rest, (p : String × List Row).1 ∉ k :: seen := by
          intro q hq hmemq
          rcases List.mem_cons.1 hmemq with hqk | hqs
          · exact hknotin (List.mem_map.2 ⟨q, hq, hqk⟩)
          · exact hfresh q (List.mem_cons_of_mem _ hq) hqs
        have hsnd2 : (k :: seen).Nodup :=
          List.nodup_cons.2 ⟨hfresh ⟨k, g⟩ (List.mem_cons_self _ _), hsnd⟩
        have hmem2 : ∀ x, x ∈ idsOf (cur ++ g) ↔ x ∈ k :: seen := by
          intro x
          rw [idsOf_append, List.mem_append, List.mem_cons]
          constructor
          · rintro (hx | hx)
            · exact Or.inr ((hmem x).1 hx)
            · exact Or.inl (hgid x hx)
          · rintro (rfl | hx)
            · exact Or.inr hkg
            · exact Or.inl ((hmem x).2 hx)
        rw [ih idx (cur ++ g) (k :: seen) hnd2 hmatch2 hne2 hfresh2 hsnd2 hmem2]
        simp only [List.length_cons]
        rw [countsFrom_succ, if_neg hseal]

lemma buildPlan_counts (rows : List Row) (chunk_size : Int) :
    (buildPlan rows chunk_size).map chunkGroupCount
      = countsFrom chunk_size 0 (nunique rows) := by
  have h := chunkLoop_counts chunk_size (groupby rows) 0 [] []
    (groupby_keys_nodup rows) (fun p hp => groupby_group_ids hp)
    (fun p hp => groupby_group_ne_nil hp) (by simp) List.nodup_nil
    (by simp [idsOf])
  rw [buildPlan, h]
  have hlen : (groupby rows).length = nunique rows := by
    rw [groupby, List.length_map, sortedKeys,
      (List.perm_insertionSort keyOrder _).length_eq]
    rfl
  rw [hlen]
  rfl

end CodecFake

namespace CodecFake

lemma getD_map (f : Chunk → Nat) (d : Chunk) :
    ∀ (l : List Chunk) (i : Nat), (l.map f).getD i (f d) = f (l.getD i d) := by
  intro l
  induction l with
  | nil => intro i; simp [List.getD]
  | cons a l ih =>
      intro i
      cases i with
      | zero => simp
      | succ j => simp [ih j]

lemma countsFrom_ne_nil (chunk_size : Int) :
    ∀ (t s : Nat), s ≠ 0 → countsFrom chunk_size s t ≠ [] := by
  intro t
  induction t with
  | zero =>
      intro s hs
      rw [countsFrom_zero, if_neg hs]
      simp
  | succ t ih =>
      intro s hs
      rw [countsFrom_succ]
      by_cases hseal : (s : Int) + 1 > chunk_size
      · rw [if_pos hseal]
        simp
      · rw [if_neg hseal]
        exact ih (s + 1) (Nat.succ_ne_zero s)

lemma countsFrom_full (chunk_size : Int) (hcs : 1 ≤ chunk_size) :
    ∀ (t s : Nat), (s : Int) ≤ chunk_size →
      ∀ i, i + 1 < (countsFrom chunk_size s t).length →
        ((countsFrom chunk_size s t).getD i 0 : Int) = chunk_size := by
  intro t
  induction t with
  | zero =>
      intro s _ i hi
      rw [countsFrom_zero] at hi
      by_cases h0 : s = 0 <;> simp [h0] at hi
  | succ t ih =>
      intro s hs i hi
      rw [countsFrom_succ] at hi ⊢
      by_cases hseal : (s : Int) + 1 > chunk_size
      · rw [if_pos hseal] at hi ⊢
        cases i with
        | zero =>
            rw [List.getD_cons_zero]
            omega
        | succ j =>
            rw [List.getD_cons_succ]
            rw [List.length_cons] at hi
            exact ih 1 (by omega) j (by omega)
      · rw [if_neg hseal] at hi ⊢
        exact ih (s + 1) (by omega) i hi

lemma countsFrom_last (chunk_size : Int) (hcs : 1 ≤ chunk_size) :
    ∀ (t s : Nat), (s : Int) ≤ chunk_size →
      ∀ L, (countsFrom chunk_size s t).getLast? = some L →
        (L : Int) < chunk_size → ¬ (chunk_size ∣ ((s : Int) + (t : Int))) := by
  intro t
  induction t with
  | zero =>
      intro s hs L hL hlt hdvd
      by_cases h0 : s = 0
      · rw [countsFrom_zero, if_pos h0] at hL
        simp at hL
      · rw [countsFrom_zero, if_neg h0] at hL
        have hLs : s = L := by simpa using hL
        subst hLs
        have hsd : chunk_size ∣ (s : Int) := by
          have h00 : ((s : Int) + ((0 : Nat) : Int)) = (s : Int) := by push_cast; ring
          rw [← h00]
          exact hdvd
        have := Int.le_of_dvd (by omega) hsd
        omega
  | succ t ih =>
      intro s hs L hL hlt hdvd
      by_cases hseal : (s : Int) + 1 > chunk_size
      · rw [countsFrom_succ, if_pos hseal] at hL
        have hne : countsFrom chunk_size 1 t ≠ [] := countsFrom_ne_nil _ t 1 one_ne_zero
        obtain ⟨b, l2, hbl⟩ := List.exists_cons_of_ne_nil hne
        rw [hbl, List.getLast?_cons_cons] at hL
        refine ih 1 (by omega) L (by rw [hbl]; exact hL) hlt ?_
        have heq : ((s : Int) + ((t : Nat) + 1 : Nat)) = chunk_size + (((1 : Nat) : Int) + (t : Int)) := by
          push_cast
          omega
        rw [heq] at hdvd
        exact (dvd_add_right dvd_rfl).1 hdvd
      · rw [countsFrom_succ, if_neg hseal] at hL
        refine ih (s + 1) (by omega) L hL hlt ?_
        have heq : ((s : Int) + ((t : Nat) + 1 : Nat)) = (((s + 1 : Nat) : Int) + (t : Int)) := by
          push_cast
          ring
        rw [heq] at hdvd
        exact hdvd

lemma countsFrom_pos (chunk_size : Int) (hcs : 1 ≤ chunk_size) :
    ∀ (t s : Nat), ∀ x ∈ countsFrom chunk_size s t, 1 ≤ x := by
  intro t
  induction t with
  | zero =>
      intro s x hx
      rw [countsFrom_zero] at hx
      by_cases h0 : s = 0
      · rw [if_pos h0] at hx
        exact absurd hx (List.not_mem_nil x)
      · rw [if_neg h0] at hx
        have : x = s := List.mem_singleton.1 hx
        omega
  | succ t ih =>
      intro s x hx
      rw [countsFrom_succ] at hx
      by_cases hseal : (s : Int) + 1 > chunk_size
      · rw [if_pos hseal] at hx
        rcases List.mem_cons.1 hx with rfl | hx2
        · omega
        · exact ih 1 x hx2
      · rw [if_neg hseal] at hx
        exact ih (s + 1) x hx

/-- Claim C2, as stated, is false for chunk size `0`: on two one-row groups
the loop seals an empty zeroth chunk, and the middle chunk `partition1` of
the resulting three-chunk plan is not the last chunk yet holds `1 ≠ 0`
distinct group ids. -/
theorem claim2_counterexample :
    buildPlan [⟨"a.flac", "A", "R"⟩, ⟨"b.flac", "B", "R"⟩] 0
      = [⟨"partition0", []⟩, ⟨"partition1", [⟨"a.flac", "A", "R"⟩]⟩,
         ⟨"partition2", [⟨"b.flac", "B", "R"⟩]⟩]
    ∧ (buildPlan [⟨"a.flac", "A", "R"⟩, ⟨"b.flac", "B", "R"⟩] 0).length = 3
    ∧ chunkGroupCount
        ((buildPlan [⟨"a.flac", "A", "R"⟩, ⟨"b.flac", "B", "R"⟩] 0).getD 1 ⟨"", []⟩) = 1
    ∧ (1 : Int) ≠ (0 : Int) :=
  ⟨by decide, by decide, by decide, by decide⟩

/-- Claim C2 (amended with `1 ≤ chunk_size`, which always holds for sizes
delivered by `find_best_chunk_size` under positive bounds): every chunk
except possibly the last holds exactly `chunk_size` distinct group ids, and
the last chunk holds fewer only when `chunk_size` does not divide the
number of distinct group ids of the input. -/
theorem claim2_theorem (rows : List Row) (chunk_size : Int) (hcs : 1 ≤ chunk_size) :
    (∀ i, i + 1 < (buildPlan rows chunk_size).length →
        (chunkGroupCount ((buildPlan rows chunk_size).getD i ⟨"", []⟩) : Int) = chunk_size)
    ∧ ∀ L, ((buildPlan rows chunk_size).map chunkGroupCount).getLast? = some L →
        (L : Int) < chunk_size → ¬ (chunk_size ∣ (nunique rows : Int)) := by
  have hmap := buildPlan_counts rows chunk_size
  constructor
  · intro i hi
    have hd : chunkGroupCount ((buildPlan rows chunk_size).getD i ⟨"", []⟩)
        = (countsFrom chunk_size 0 (nunique rows)).getD i 0 := by
      rw [← hmap]
      rw [show (0 : Nat) = chunkGroupCount ⟨"", []⟩ from rfl]
      rw [getD_map]
    rw [hd]
    have hlen : (countsFrom chunk_size 0 (nunique rows)).length
        = (buildPlan rows chunk_size).length := by
      rw [← hmap, List.length_map]
    exact countsFrom_full chunk_size hcs (nunique rows) 0 (by omega) i (by omega)
  · intro L hL hlt
    rw [hmap] at hL
    have := countsFrom_last chunk_size hcs (nunique rows) 0 (by omega) L hL hlt
    simpa using this

/-- Witness for C2 on two groups with chunk size `1`: both chunks are full
and the theorem applies. -/
theorem claim2_witness :
    ((1 : Int) ≤ 1)
    ∧ ((∀ i, i + 1 < (buildPlan [⟨"a.flac", "A", "R"⟩, ⟨"b.flac", "B", "R"⟩] 1).length →
          (chunkGroupCount
            ((buildPlan [⟨"a.flac", "A", "R"⟩, ⟨"b.flac", "B", "R"⟩] 1).getD i ⟨"", []⟩) : Int)
            = 1)
        ∧ ∀ L, ((buildPlan [⟨"a.flac", "A", "R"⟩, ⟨"b.flac", "B", "R"⟩] 1).map
              chunkGroupCount).getLast? = some L →
            (L : Int) < 1 →
            ¬ ((1 : Int) ∣ (nunique [⟨"a.flac", "A", "R"⟩, ⟨"b.flac", "B", "R"⟩] : Int))) :=
  ⟨by decide, claim2_theorem [⟨"a.flac", "A", "R"⟩, ⟨"b.flac", "B", "R"⟩] 1 (by decide)⟩

/-- Claim C9: with a chunk size of at least one and a non-empty filtered
input, every chunk of the plan is non-empty — it holds at least one row and
at least one group id; the loop never saves an empty chunk. -/
theorem claim9_theorem (rows : List Row) (chunk_size : Int)
    (hcs : 1 ≤ chunk_size) (hrows : rows ≠ []) :
    ∀ c ∈ buildPlan rows chunk_size, c.rows ≠ [] ∧ 1 ≤ chunkGroupCount c := by
  intro c hc
  have hmap := buildPlan_counts rows chunk_size
  have hmem : chunkGroupCount c ∈ (buildPlan rows chunk_size).map chunkGroupCount :=
    List.mem_map.2 ⟨c, hc, rfl⟩
  rw [hmap] at hmem
  have hcount : 1 ≤ chunkGroupCount c :=
    countsFrom_pos chunk_size hcs (nunique rows) 0 (chunkGroupCount c) hmem
  refine ⟨?_, hcount⟩
  intro hnil
  rw [chunkGroupCount, hnil] at hcount
  simp [idsOf] at hcount

/-- Witness for C9 on a one-row input with chunk size `1`. -/
theorem claim9_witness :
    ((1 : Int) ≤ 1 ∧ ([⟨"a.flac", "A", "R"⟩] : List Row) ≠ [])
    ∧ ((⟨"partition0", [⟨"a.flac", "A", "R"⟩]⟩ : Chunk).rows ≠ []
        ∧ 1 ≤ chunkGroupCount ⟨"partition0", [⟨"a.flac", "A", "R"⟩]⟩) :=
  ⟨⟨by decide, by decide⟩,
    claim9_theorem [⟨"a.flac", "A", "R"⟩] 1 (by decide) (by decide)
      ⟨"partition0", [⟨"a.flac", "A", "R"⟩]⟩ (by decide)⟩

end CodecFake

namespace CodecFake

lemma strLeAux_nil (y : List Char) : strLeAux [] y = true := rfl

lemma strLeAux_cons_nil (a : Char) (l : List Char) : strLeAux (a :: l) [] = false := rfl

lemma strLeAux_cons (a b : Char) (l m : List Char) :
    strLeAux (a :: l) (b :: m) =
      if a.toNat < b.toNat then true
      else if b.toNat < a.toNat then false
      else strLeAux l m := rfl

lemma strLeAux_total : ∀ (x y : List Char), strLeAux x y = true ∨ strLeAux y x = true := by
  intro x
  induction x with
  | nil => intro y; exact Or.inl (strLeAux_nil y)
  | cons a l ih =>
      intro y
      cases y with
      | nil => exact Or.inr (strLeAux_nil _)
      | cons b m =>
          by_cases h1 : a.toNat < b.toNat
          · left
            rw [strLeAux_cons, if_pos h1]
          · by_cases h2 : b.toNat < a.toNat
            · right
              rw [strLeAux_cons, if_pos h2]
            · rcases ih m with h | h
              · left
                rw [strLeAux_cons, if_neg h1, if_neg h2]
                exact h
              · right
                rw [strLeAux_cons, if_neg h2, if_neg h1]
                exact h

lemma strLeAux_trans : ∀ (x y z : List Char),
    strLeAux x y = true → strLeAux y z = true → strLeAux x z = true := by
  intro x
  induction x with
  | nil => intro y z _ _; exact strLeAux_nil z
  | cons a l ih =>
      intro y z hxy hyz
      cases y with
      | nil => rw [strLeAux_cons_nil] at hxy; exact Bool.noConfusion hxy
      | cons b m =>
          cases z with
          | nil => rw [strLeAux_cons_nil] at hyz; exact Bool.noConfusion hyz
          | cons c n =>
              rw [strLeAux_cons] at hxy hyz
              rw [strLeAux_cons]
              by_cases hab : a.toNat < b.toNat
              · by_cases hbc : b.toNat < c.toNat
                · rw [if_pos (by omega : a.toNat < c.toNat)]
                · rw [if_neg hbc] at hyz
                  by_cases hcb : c.toNat < b.toNat
                  · rw [if_pos hcb] at hyz
                    exact Bool.noConfusion hyz
                  · rw [if_pos (by omega : a.toNat < c.toNat)]
              · rw [if_neg hab] at hxy
                by_cases hba : b.toNat < a.toNat
                · rw [if_pos hba] at hxy
                  exact Bool.noConfusion hxy
                · rw [if_neg hba] at hxy
                  by_cases hbc : b.toNat < c.toNat
                  · rw [if_pos (by omega : a.toNat < c.toNat)]
                  · rw [if_neg hbc] at hyz
                    by_cases hcb : c.toNat < b.toNat
                    · rw [if_pos hcb] at hyz
                      exact Bool.noConfusion hyz
                    · rw [if_neg hcb] at hyz
                      rw [if_neg (by omega : ¬ a.toNat < c.toNat),
                        if_neg (by omega : ¬ c.toNat < a.toNat)]
                      exact ih m n hxy hyz

lemma firstOccsAux_nil (seen : List String) : firstOccsAux seen [] = [] := rfl

lemma firstOccsAux_cons (seen : List String) (a : String) (l : List String) :
    firstOccsAux seen (a :: l) =
      if a ∈ seen then firstOccsAux seen l
      else a :: firstOccsAux (a :: seen) l := rfl

lemma firstOccsAux_sub :
    ∀ (l seen l2 : List String), (∀ x ∈ l, x ∈ seen) →
      firstOccsAux seen (l ++ l2) = firstOccsAux seen l2 := by
  intro l
  induction l with
  | nil => intro seen l2 _; rfl
  | cons a l ih =>
      intro seen l2 hall
      rw [List.cons_append, firstOccsAux_cons, if_pos (hall a (List.mem_cons_self _ _))]
      exact ih seen l2 (fun x hx => hall x (List.mem_cons_of_mem _ hx))

lemma firstOccsAux_group (k : String) :
    ∀ (xs : List String), (∀ x ∈ xs, x = k) → xs ≠ [] →
      ∀ (seen l2 : List String), k ∉ seen →
        firstOccsAux seen (xs ++ l2) = k :: firstOccsAux (k :: seen) l2 := by
  intro xs
  cases xs with
  | nil => intro _ hne; exact absurd rfl hne
  | cons a l =>
      intro hall hne seen l2 hk
      have ha : a = k := hall a (List.mem_cons_self _ _)
      subst ha
      rw [List.cons_append, firstOccsAux_cons, if_neg hk]
      congr 1
      exact firstOccsAux_sub l (a :: seen) l2
        (fun x hx => by rw [hall x (List.mem_cons_of_mem _ hx)]; exact List.mem_cons_self _ _)

lemma firstOccs_groups :
    ∀ (gs : List (String × List Row)) (seen : List String),
      (gs.map Prod.fst).Nodup →
      (∀ p ∈ gs, ∀ r ∈ p.2, r.audio_id = p.1) →
      (∀ p ∈ gs, (p : String × List Row).2 ≠ []) →
      (∀ p ∈ gs, (p : String × List Row).1 ∉ seen) →
      firstOccsAux seen (idsOf (gs.map Prod.snd).flatten) = gs.map Prod.fst := by
  intro gs
  induction gs with
  | nil => intro seen _ _ _ _; simp [idsOf, firstOccsAux_nil]
  | cons p rest ih =>
      obtain ⟨k, g⟩ := p
      intro seen hnd hmatch hne hfresh
      have hnd2 : (rest.map Prod.fst).Nodup := (List.nodup_cons.1 hnd).2
      have hknotin : k ∉ rest.map Prod.fst := (List.nodup_cons.1 hnd).1
      have hmatch2 : ∀ p ∈ rest, ∀ r ∈ p.2, r.audio_id = p.1 :=
        fun p hp => hmatch p (List.mem_cons_of_mem _ hp)
      have hne2 : ∀ p ∈ rest, (p : String × List Row).2 ≠ [] :=
        fun p hp => hne p (List.mem_cons_of_mem _ hp)
      have hgid : ∀ x ∈ idsOf g, x = k := by
        intro x hx
        obtain ⟨r, hr, hrx⟩ := mem_idsOf.1 hx
        rw [← hrx]
        exact hmatch ⟨k, g⟩ (List.mem_cons_self _ _) r hr
      have hgne : idsOf g ≠ [] := by
        intro h0
        exact hne ⟨k, g⟩ (List.mem_cons_self _ _) (List.map_eq_nil_iff.1 h0)
      have hfresh2 : ∀ p ∈ rest, (p : String × List Row).1 ∉ k :: seen := by
        intro q hq hmemq
        rcases List.mem_cons.1 hmemq with hqk | hqs
        · exact hknotin (List.mem_map.2 ⟨q, hq, hqk⟩)
        · exact hfresh q (List.mem_cons_of_mem _ hq) hqs
      simp only [List.map_cons]
      rw [List.flatten_cons, idsOf_append]
      rw [firstOccsAux_group k (idsOf g) hgid hgne seen _
        (hfresh ⟨k, g⟩ (List.mem_cons_self _ _))]
      congr 1
      exact ih (k :: seen) hnd2 hmatch2 hne2 hfresh2

/-- Claim C5, as stated, is false: with items whose groups are first
encountered in the order `B`, `A`, the plan lays the groups out in the
sorted order `A`, `B` (pandas `groupby` sorts the keys), not in
first-encounter order. -/
theorem claim5_counterexample :
    groupOrder (buildPlan [⟨"real.flac", "B", "R"⟩, ⟨"a.flac", "A", "R"⟩] 1) = ["A", "B"]
    ∧ firstOccs (idsOf [⟨"real.flac", "B", "R"⟩, ⟨"a.flac", "A", "R"⟩]) = ["B", "A"]
    ∧ groupOrder (buildPlan [⟨"real.flac", "B", "R"⟩, ⟨"a.flac", "A", "R"⟩] 1)
        ≠ firstOccs (idsOf [⟨"real.flac", "B", "R"⟩, ⟨"a.flac", "A", "R"⟩]) :=
  ⟨by decide, by decide, by decide⟩

/-- Claim C5 (amended): for every input row list and chunk size, the groups
are laid out across the chunks in ascending code-point order of their group
ids — the sorted order that `df.groupby('audio_id')` iterates in — rather
than in order of first encounter. -/
theorem claim5_theorem (rows : List Row) (chunk_size : Int) :
    groupOrder (buildPlan rows chunk_size) = sortedKeys rows
    ∧ List.Sorted keyOrder (groupOrder (buildPlan rows chunk_size)) := by
  have hfl := chunkLoop_flatten chunk_size (groupby rows) 0 [] []
    (groupby_keys_nodup rows) (by simp)
  rw [List.nil_append] at hfl
  have h1 : groupOrder (buildPlan rows chunk_size) = sortedKeys rows := by
    rw [groupOrder, buildPlan, hfl, firstOccs]
    rw [firstOccs_groups (groupby rows) [] (groupby_keys_nodup rows)
      (fun p hp => groupby_group_ids hp) (fun p hp => groupby_group_ne_nil hp) (by simp)]
    exact groupby_keys rows
  refine ⟨h1, ?_⟩
  rw [h1, sortedKeys]
  exact @List.sorted_insertionSort String keyOrder _
    ⟨fun a b => strLeAux_total a.data b.data⟩
    ⟨fun a b c hab hbc => strLeAux_trans a.data b.data c.data hab hbc⟩
    _

/-- Claim C8: the three-item scenario with chunk size `1` yields exactly the
two chunks `partition0` (both `A` rows, labelled `F01`) and `partition1`
(the `B` row, labelled `R`), with sequential zero-based names. -/
theorem claim8_theorem :
    buildPlan (create_df [("A", "F01_x.flac"), ("A", "F01_y.flac"), ("B", "real.flac")]) 1
      = [⟨"partition0", [⟨"F01_x.flac", "A", "F01"⟩, ⟨"F01_y.flac", "A", "F01"⟩]⟩,
         ⟨"partition1", [⟨"real.flac", "B", "R"⟩]⟩] := by decide

end CodecFake
